import Mathlib

/-!
Verification of the `rect` crate (`src/lib.rs`): a 2D axis-aligned rectangle
type on an integer grid where y increases upward.

Machine integers (`i32`) are modelled as `Int`; the spec declares integer
overflow out of scope, so the arithmetic is exact. Rust's truncating integer
division `/` is `Int.tdiv`. The lazy `InteriorIter` iterator is modelled as a
step function `InteriorIter.next : InteriorIter → Option (Point × InteriorIter)`
and runs are taken with an explicit fuel, quantified over all sufficient fuels.
-/

/-- The external `Point` type: 2D integer coordinate with vector arithmetic. -/
structure Point where
  x : Int
  y : Int
deriving DecidableEq, Repr

instance : Add Point :=
  ⟨fun a b => Point.mk (a.x + b.x) (a.y + b.y)⟩

/-- The `Rect` struct from `src/lib.rs`: `top` is the largest y co-ord,
`left` the farthest-left x co-ord, `wid`/`hgt` the extent in tiles. -/
structure Rect where
  top : Int
  left : Int
  wid : Int
  hgt : Int
deriving DecidableEq, Repr

/-- `Rect::new(left, top, wid, hgt)`. -/
def Rect.new (left top wid hgt : Int) : Rect :=
  { top := top, left := left, wid := wid, hgt := hgt }

/-- `Rect::right`: `self.left + self.wid - 1`. -/
def Rect.right (r : Rect) : Int :=
  r.left + r.wid - 1

/-- `Rect::bottom`: `self.top - self.hgt + 1`. -/
def Rect.bottom (r : Rect) : Int :=
  r.top - r.hgt + 1

/-- `Rect::top_left`: `Point::new(self.left, self.top)`. -/
def Rect.top_left (r : Rect) : Point :=
  Point.mk r.left r.top

/-- `Rect::overlaps`. -/
def Rect.overlaps (r other : Rect) : Bool :=
  decide (r.left ≤ other.right) && decide (r.right ≥ other.left)
    && decide (r.top ≥ other.bottom) && decide (r.bottom ≤ other.top)

/-- `Rect::contains`. -/
def Rect.contains (r : Rect) (pos : Point) : Bool :=
  decide (r.left ≤ pos.x) && decide (r.right ≥ pos.x)
    && decide (r.top ≥ pos.y) && decide (r.bottom ≤ pos.y)

/-- `Rect::corners`: `[top-left, top-right, bottom-left, bottom-right]`. -/
def Rect.corners (r : Rect) : List Point :=
  [Point.mk r.left r.top, Point.mk r.right r.top,
   Point.mk r.left r.bottom, Point.mk r.right r.bottom]

/-- The inclusive Rust range `a..=b` as a list of `Int`s (empty when `b < a`). -/
def intRangeIncl (a b : Int) : List Int :=
  (List.range (b + 1 - a).toNat).map (fun (i : Nat) => a + (i : Int))

/-- `Rect::edges`: the top/bottom rows left to right (pairs `(x, top)`,
`(x, bottom)`), then the left/right columns over `bottom+1 ..= top-1`
(pairs `(left, y)`, `(right, y)`). -/
def Rect.edges (r : Rect) : List Point :=
  (intRangeIncl r.left r.right).flatMap
      (fun x => [Point.mk x r.top, Point.mk x r.bottom])
    ++ (intRangeIncl (r.bottom + 1) (r.top - 1)).flatMap
      (fun y => [Point.mk r.left y, Point.mk r.right y])

/-- `Rect::expand`: the four sequential mutations of the Rust body. -/
def Rect.expand (r : Rect) (dir : Point) : Rect :=
  let r := { r with wid := r.wid + |dir.x| }
  let r := if dir.x < 0 then { r with left := r.left + dir.x } else r
  let r := { r with hgt := r.hgt + |dir.y| }
  let r := if dir.y > 0 then { r with top := r.top + dir.y } else r
  r

/-- `Rect::area`: `(self.wid * self.hgt).unsigned_abs()`. -/
def Rect.area (r : Rect) : Nat :=
  (r.wid * r.hgt).natAbs

/-- `Rect::move_to`: sets `left = pos.x`, `top = pos.y`. -/
def Rect.move_to (r : Rect) (pos : Point) : Rect :=
  { r with left := pos.x, top := pos.y }

/-- `Rect::centre_on`: `self.move_to(centre + Point::new(-self.wid / 2, self.hgt / 2))`
with Rust's truncating division. -/
def Rect.centre_on (r : Rect) (centre : Point) : Rect :=
  r.move_to (centre + Point.mk (Int.tdiv (-r.wid) 2) (Int.tdiv r.hgt 2))

/-- The `InteriorIter` struct: cursor, captured rect, terminal flag (`end`). -/
structure InteriorIter where
  cur_pos : Point
  rect : Rect
  fin : Bool
deriving DecidableEq, Repr

/-- `InteriorIter::next` from `impl Iterator for InteriorIter`, returning the
produced point together with the successor state. -/
def InteriorIter.next (it : InteriorIter) : Option (Point × InteriorIter) :=
  if it.fin then
    none
  else
    let ret := it.cur_pos
    let new_x := it.cur_pos.x + 1
    if new_x > it.rect.right then
      let cy := it.cur_pos.y - 1
      if cy < it.rect.bottom then
        some (ret, { it with cur_pos := Point.mk it.rect.left cy, fin := true })
      else
        some (ret, { it with cur_pos := Point.mk it.rect.left cy })
    else
      some (ret, { it with cur_pos := Point.mk new_x it.cur_pos.y })

/-- `impl From<Rect> for InteriorIter`: cursor at `top_left`, not terminal. -/
def InteriorIter.fromRect (val : Rect) : InteriorIter :=
  { cur_pos := val.top_left, rect := val, fin := false }

/-- `Rect::cells`. -/
def Rect.cells (r : Rect) : InteriorIter :=
  InteriorIter.fromRect r

/-- `Rect::inner_cells`: iterator over the rect shrunk by one on each side. -/
def Rect.inner_cells (r : Rect) : InteriorIter :=
  InteriorIter.fromRect (Rect.new (r.left + 1) (r.top - 1) (r.wid - 2) (r.hgt - 2))

/-- Drive the iterator for up to `fuel` steps, collecting the produced points.
Any fuel at least the number of remaining emissions yields the full sequence. -/
def collectFuel : Nat → InteriorIter → List Point
  | 0, _ => []
  | n + 1, it =>
    match it.next with
    | none => []
    | some (p, it') => p :: collectFuel n it'

/-- C8: for every rect (any integer fields), `right - left + 1 = wid` and
`top - bottom + 1 = hgt`. -/
theorem right_bottom_derived (r : Rect) :
    r.right - r.left + 1 = r.wid ∧ r.top - r.bottom + 1 = r.hgt := by
  unfold Rect.right Rect.bottom
  omega

/-- C5: `overlaps` is a symmetric relation on all rects. -/
theorem overlaps_symm (a b : Rect) : a.overlaps b = b.overlaps a := by
  rw [Bool.eq_iff_iff]
  simp only [Rect.overlaps, Rect.right, Rect.bottom, Bool.and_eq_true,
    decide_eq_true_eq]
  omega

/-- C9: `contains pos` holds iff `left ≤ pos.x ≤ right` and
`bottom ≤ pos.y ≤ top`; in particular every rect with `wid ≥ 1` and `hgt ≥ 1`
contains its own top-left corner. -/
theorem contains_correct (r : Rect) (pos : Point) :
    (r.contains pos = true ↔
      r.left ≤ pos.x ∧ pos.x ≤ r.right ∧ r.bottom ≤ pos.y ∧ pos.y ≤ r.top) ∧
    (1 ≤ r.wid → 1 ≤ r.hgt → r.contains r.top_left = true) := by
  constructor
  · simp only [Rect.contains, Rect.right, Rect.bottom, Bool.and_eq_true,
      decide_eq_true_eq]
    omega
  · intro hw hh
    simp only [Rect.contains, Rect.top_left, Rect.right, Rect.bottom,
      Bool.and_eq_true, decide_eq_true_eq]
    omega

/-- Witness for C9 at `Rect::new(0, 0, 3, 5)` and the point `(1, -3)`. -/
theorem contains_correct_witness :
    (Rect.new 0 0 3 5).contains (Point.mk 1 (-3)) = true ∧
    (Rect.new 0 0 3 5).contains (Rect.new 0 0 3 5).top_left = true :=
  ⟨(contains_correct (Rect.new 0 0 3 5) (Point.mk 1 (-3))).1.mpr (by decide),
   (contains_correct (Rect.new 0 0 3 5) (Point.mk 1 (-3))).2 (by decide) (by decide)⟩

/-- C6: after `centre_on(centre)` the top-left corner is
`centre + (-wid/2, hgt/2)` with truncating division; in particular
`Rect::new(0,4,4,4)` centred on `(4,4)` has top-left `(2,6)`. -/
theorem centre_on_correct (r : Rect) (c : Point) :
    (r.centre_on c).top_left
        = c + Point.mk (-(Int.tdiv r.wid 2)) (Int.tdiv r.hgt 2) ∧
    ((Rect.new 0 4 4 4).centre_on (Point.mk 4 4)).top_left = Point.mk 2 6 := by
  refine ⟨?_, by decide⟩
  simp only [Rect.centre_on, Rect.move_to, Rect.top_left, Int.neg_tdiv]

/-- C7: `expand(dir)` adds `|dir.x|` to `wid`, moves `left` down by `|dir.x|`
exactly when `dir.x < 0`, adds `|dir.y|` to `hgt`, moves `top` up by `dir.y`
exactly when `dir.y > 0`; `expand((0,0))` is a no-op. -/
theorem expand_correct (r : Rect) (dir : Point) :
    (r.expand dir).wid = r.wid + |dir.x| ∧
    (r.expand dir).left = (if dir.x < 0 then r.left - |dir.x| else r.left) ∧
    (r.expand dir).hgt = r.hgt + |dir.y| ∧
    (r.expand dir).top = (if dir.y > 0 then r.top + dir.y else r.top) ∧
    r.expand (Point.mk 0 0) = r := by
  refine ⟨?_, ?_, ?_, ?_, by simp [Rect.expand]⟩ <;>
    unfold Rect.expand <;>
    rcases abs_cases dir.x with ⟨hx, hx0⟩ | ⟨hx, hx0⟩ <;>
    rcases abs_cases dir.y with ⟨hy, hy0⟩ | ⟨hy, hy0⟩ <;>
    simp only [hx, hy] <;>
    split_ifs <;>
    (try simp) <;>
    omega

/-- C10: for every rect, degenerate or not, the first `next()` of `cells()`
produces `Some` of the rect's top-left corner — the iterator never starts
empty. -/
theorem cells_first_some (r : Rect) :
    Option.map Prod.fst r.cells.next = some r.top_left := by
  simp only [Rect.cells, InteriorIter.fromRect, InteriorIter.next]
  split
  · simp_all
  · split
    · split <;> rfl
    · rfl

/-- C2 (code evaluation): on `Rect::new(0,0,2,2)` (so `wid = 2`), the first
`next()` of `inner_cells()` produces `Some((1,-1))` — a boundary cell of the
original rect — rather than `None`. -/
theorem inner_cells_degenerate_first :
    Option.map Prod.fst (Rect.new 0 0 2 2).inner_cells.next
      = some (Point.mk 1 (-1)) := by
  decide

/-- Reference enumeration of one row: `n` points starting at `(x, y)` with x
ascending. -/
def specRow : Nat → Int → Int → List Point
  | 0, _, _ => []
  | n + 1, x, y => Point.mk x y :: specRow n (x + 1) y

/-- Reference enumeration of `m` rows of width `wid.toNat` starting at row `y`
and descending. -/
def specRows (r : Rect) : Nat → Int → List Point
  | 0, _ => []
  | m + 1, y => specRow r.wid.toNat r.left y ++ specRows r m (y - 1)

/-- The row-major cell list of a rect: rows from `top` downward, each row from
`left` rightward. -/
def cellsList (r : Rect) : List Point :=
  specRows r r.hgt.toNat r.top

theorem specRow_length (n : Nat) (x y : Int) : (specRow n x y).length = n := by
  induction n generalizing x with
  | zero => rfl
  | succ k ih => simp [specRow, ih]

theorem specRows_length (r : Rect) (m : Nat) (y : Int) :
    (specRows r m y).length = m * r.wid.toNat := by
  induction m generalizing y with
  | zero => simp [specRows]
  | succ k ih =>
    simp [specRows, specRow_length, ih, Nat.succ_mul]
    omega

theorem collectFuel_fin (fuel : Nat) (p : Point) (r : Rect) :
    collectFuel fuel (InteriorIter.mk p r true) = [] := by
  cases fuel <;> simp [collectFuel, InteriorIter.next]

theorem collectFuel_run (r : Rect) (hw : 1 ≤ r.wid) :
    ∀ (fuel rows cols : Nat) (x y : Int),
      x + (cols : Int) = r.right + 1 →
      1 ≤ cols →
      y = r.bottom + (rows : Int) →
      cols + rows * r.wid.toNat ≤ fuel →
      collectFuel fuel (InteriorIter.mk (Point.mk x y) r false)
        = specRow cols x y ++ specRows r rows (y - 1) := by
  have hrt : r.right = r.left + r.wid - 1 := rfl
  intro fuel
  induction fuel with
  | zero =>
    intro rows cols x y h1 h2 h3 h4
    omega
  | succ f ih =>
    intro rows cols x y h1 h2 h3 h4
    by_cases hwrap : x + 1 > r.right
    · have hc : cols = 1 := by omega
      subst hc
      by_cases hend : y - 1 < r.bottom
      · have hr : rows = 0 := by omega
        subst hr
        simp only [collectFuel, InteriorIter.next, Bool.false_eq_true, if_false,
          if_pos hwrap, if_pos hend]
        simp [specRow, specRows, collectFuel_fin]
      · obtain ⟨k, rk⟩ : ∃ k, rows = k + 1 := ⟨rows - 1, by omega⟩
        subst rk
        have hmul : (k + 1) * r.wid.toNat = k * r.wid.toNat + r.wid.toNat :=
          Nat.succ_mul k _
        simp only [collectFuel, InteriorIter.next, Bool.false_eq_true, if_false,
          if_pos hwrap, if_neg hend]
        rw [ih k r.wid.toNat r.left (y - 1) (by omega) (by omega) (by omega)
          (by omega)]
        simp [specRow, specRows]
    · obtain ⟨c, rc⟩ : ∃ c, cols = c + 1 := ⟨cols - 1, by omega⟩
      subst rc
      have hc1 : 1 ≤ c := by omega
      simp only [collectFuel, InteriorIter.next, Bool.false_eq_true, if_false,
        if_neg hwrap]
      rw [ih rows c (x + 1) y (by omega) hc1 h3 (by omega)]
      simp [specRow]

theorem toNat_mul_of_nonneg {a b : Int} (ha : 0 ≤ a) (hb : 0 ≤ b) :
    (a * b).toNat = a.toNat * b.toNat := by
  rcases Int.eq_ofNat_of_zero_le ha with ⟨m, rfl⟩
  rcases Int.eq_ofNat_of_zero_le hb with ⟨n, rfl⟩
  rw [← Int.natCast_mul, Int.toNat_natCast, Int.toNat_natCast, Int.toNat_natCast]

/-- C1: for `wid ≥ 1`, `hgt ≥ 1` and any sufficient fuel, `cells()` produces
exactly the row-major enumeration (y descending from `top` to `bottom`, x
ascending from `left` to `right` within each row), and its length is
`wid * hgt`. -/
theorem cells_row_major (r : Rect) (hw : 1 ≤ r.wid) (hh : 1 ≤ r.hgt)
    (fuel : Nat) (hfuel : (r.wid * r.hgt).toNat ≤ fuel) :
    collectFuel fuel r.cells = cellsList r ∧
    (collectFuel fuel r.cells).length = (r.wid * r.hgt).toNat := by
  have hrt : r.right = r.left + r.wid - 1 := rfl
  have hbt : r.bottom = r.top - r.hgt + 1 := rfl
  have hWH : (r.wid * r.hgt).toNat = r.wid.toNat * r.hgt.toNat :=
    toNat_mul_of_nonneg (by omega) (by omega)
  obtain ⟨k, hk⟩ : ∃ k, r.hgt.toNat = k + 1 := ⟨r.hgt.toNat - 1, by omega⟩
  rw [hk] at hWH
  have hm1 : r.wid.toNat * (k + 1) = r.wid.toNat * k + r.wid.toNat :=
    Nat.mul_succ _ _
  have hm2 : k * r.wid.toNat = r.wid.toNat * k := Nat.mul_comm _ _
  have hrun := collectFuel_run r hw fuel k r.wid.toNat r.left r.top
    (by omega) (by omega) (by omega) (by omega)
  have hcl : cellsList r = specRow r.wid.toNat r.left r.top
      ++ specRows r k (r.top - 1) := by
    rw [cellsList, hk]
    rfl
  have hEq : collectFuel fuel r.cells = cellsList r := by
    rw [hcl]
    exact hrun
  refine ⟨hEq, ?_⟩
  rw [hEq, hcl]
  simp [specRow_length, specRows_length]
  omega

/-- Witness for C1 at `Rect::new(1, 2, 3, 4)` with fuel 12. -/
theorem cells_row_major_witness :
    collectFuel 12 (Rect.new 1 2 3 4).cells = cellsList (Rect.new 1 2 3 4) ∧
    (collectFuel 12 (Rect.new 1 2 3 4).cells).length = 12 :=
  ⟨(cells_row_major (Rect.new 1 2 3 4) (by decide) (by decide) 12 (by decide)).1,
   (cells_row_major (Rect.new 1 2 3 4) (by decide) (by decide) 12 (by decide)).2⟩

/-- Spec wording of the first `edges` pass: for `n` values of x ascending,
emit `(x, top)` then `(x, bottom)`. -/
def edgesSpecCols : Nat → Int → Int → Int → List Point
  | 0, _, _, _ => []
  | n + 1, x, t, b => Point.mk x t :: Point.mk x b :: edgesSpecCols n (x + 1) t b

/-- Spec wording of the second `edges` pass: for `n` values of y ascending,
emit `(left, y)` then `(right, y)`. -/
def edgesSpecSides : Nat → Int → Int → Int → List Point
  | 0, _, _, _ => []
  | n + 1, y, l, rg => Point.mk l y :: Point.mk rg y :: edgesSpecSides n (y + 1) l rg

/-- The spec's description of `edges()`: top/bottom pairs for x from `left` to
`right`, then left/right pairs for y from `bottom + 1` to `top - 1`. -/
def edgesSpec (r : Rect) : List Point :=
  edgesSpecCols (r.right + 1 - r.left).toNat r.left r.top r.bottom
    ++ edgesSpecSides (r.top - 1 + 1 - (r.bottom + 1)).toNat (r.bottom + 1)
        r.left r.right

theorem intRangeIncl_cons (a b : Int) (h : a ≤ b) :
    intRangeIncl a b = a :: intRangeIncl (a + 1) b := by
  unfold intRangeIncl
  obtain ⟨n, hn⟩ : ∃ n : Nat, (b + 1 - a).toNat = n + 1 :=
    ⟨(b + 1 - a).toNat - 1, by omega⟩
  have hn2 : (b + 1 - (a + 1)).toNat = n := by omega
  rw [hn, hn2, List.range_succ_eq_map]
  simp only [List.map_cons, List.map_map, List.cons.injEq]
  refine ⟨by simp, ?_⟩
  apply List.map_congr_left
  intro i hi
  simp only [Function.comp_apply]
  omega

theorem intRangeIncl_nil (a b : Int) (h : b < a) : intRangeIncl a b = [] := by
  unfold intRangeIncl
  have h0 : (b + 1 - a).toNat = 0 := by omega
  rw [h0]
  rfl

theorem edges_cols_eq (n : Nat) : ∀ (a b t bo : Int), (b + 1 - a).toNat = n →
    (intRangeIncl a b).flatMap (fun x => [Point.mk x t, Point.mk x bo])
      = edgesSpecCols n a t bo := by
  induction n with
  | zero =>
    intro a b t bo h
    rw [intRangeIncl_nil a b (by omega)]
    rfl
  | succ k ih =>
    intro a b t bo h
    rw [intRangeIncl_cons a b (by omega)]
    simp only [List.flatMap_cons, edgesSpecCols, List.cons_append, List.nil_append]
    rw [ih (a + 1) b t bo (by omega)]

theorem edges_sides_eq (n : Nat) : ∀ (a b l rg : Int), (b + 1 - a).toNat = n →
    (intRangeIncl a b).flatMap (fun y => [Point.mk l y, Point.mk rg y])
      = edgesSpecSides n a l rg := by
  induction n with
  | zero =>
    intro a b l rg h
    rw [intRangeIncl_nil a b (by omega)]
    rfl
  | succ k ih =>
    intro a b l rg h
    rw [intRangeIncl_cons a b (by omega)]
    simp only [List.flatMap_cons, edgesSpecSides, List.cons_append, List.nil_append]
    rw [ih (a + 1) b l rg (by omega)]

theorem edges_eq_spec (r : Rect) : r.edges = edgesSpec r := by
  unfold Rect.edges edgesSpec
  rw [edges_cols_eq _ r.left r.right r.top r.bottom rfl,
    edges_sides_eq _ (r.bottom + 1) (r.top - 1) r.left r.right rfl]

/-- C3: `edges()` is exactly, in order, the pairs `(x, top)`, `(x, bottom)`
for x from `left` to `right`, then the pairs `(left, y)`, `(right, y)` for y
from `bottom + 1` up to `top - 1` ascending, with no deduplication. -/
theorem edges_exact_order (r : Rect) : r.edges = edgesSpec r :=
  edges_eq_spec r

/-- Reference enumeration of one column: `n` points at fixed `x` with y
ascending from `y`. -/
def specCol : Nat → Int → Int → List Point
  | 0, _, _ => []
  | n + 1, y, x => Point.mk x y :: specCol n (y + 1) x

theorem Point.mk_eq (p : Point) (a b : Int) :
    p = Point.mk a b ↔ p.x = a ∧ p.y = b := by
  cases p
  simp [Point.mk.injEq]

theorem Point.mk_eq' (p : Point) (a b : Int) :
    Point.mk a b = p ↔ p.x = a ∧ p.y = b := by
  cases p
  simp [Point.mk.injEq, and_comm]
  constructor
  · intro h
    exact ⟨h.1.symm, h.2.symm⟩
  · intro h
    exact ⟨h.1.symm, h.2.symm⟩

theorem specRow_count (n : Nat) (x y : Int) (p : Point) :
    (specRow n x y).count p
      = if p.y = y ∧ x ≤ p.x ∧ p.x < x + n then 1 else 0 := by
  induction n generalizing x with
  | zero =>
    simp only [specRow, List.count_nil]
    split_ifs with h
    · omega
    · rfl
  | succ k ih =>
    simp only [specRow, List.count_cons, ih, beq_iff_eq, Point.mk_eq, Point.mk_eq']
    push_cast
    split_ifs <;> omega

theorem specCol_count (n : Nat) (y x : Int) (p : Point) :
    (specCol n y x).count p
      = if p.x = x ∧ y ≤ p.y ∧ p.y < y + n then 1 else 0 := by
  induction n generalizing y with
  | zero =>
    simp only [specCol, List.count_nil]
    split_ifs with h
    · omega
    · rfl
  | succ k ih =>
    simp only [specCol, List.count_cons, ih, beq_iff_eq, Point.mk_eq, Point.mk_eq']
    push_cast
    split_ifs <;> omega

theorem edgesSpecCols_count (n : Nat) (x t b : Int) (p : Point) :
    (edgesSpecCols n x t b).count p
      = (specRow n x t).count p + (specRow n x b).count p := by
  induction n generalizing x with
  | zero => rfl
  | succ k ih =>
    simp only [edgesSpecCols, specRow, List.count_cons, ih]
    omega

theorem edgesSpecSides_count (n : Nat) (y l rg : Int) (p : Point) :
    (edgesSpecSides n y l rg).count p
      = (specCol n y l).count p + (specCol n y rg).count p := by
  induction n generalizing y with
  | zero => rfl
  | succ k ih =>
    simp only [edgesSpecSides, specCol, List.count_cons, ih]
    omega

/-- C4 counterexample: `Rect::new(0,1,2,2)` has `wid ≥ 1` and `hgt ≥ 1`, yet
the corner `(left, top) = (0, 1)` appears once, not twice, in `edges()`. -/
theorem edges_corner_twice_cex :
    1 ≤ (Rect.new 0 1 2 2).wid ∧ 1 ≤ (Rect.new 0 1 2 2).hgt ∧
    ((Rect.new 0 1 2 2).edges.count
      (Point.mk (Rect.new 0 1 2 2).left (Rect.new 0 1 2 2).top)) ≠ 2 := by
  decide

/-- C4 amended: for every rect with `wid ≥ 2` and `hgt ≥ 2`, each of the four
corner points appears exactly once in `edges()`. -/
theorem edges_corner_once (r : Rect) (hw : 2 ≤ r.wid) (hh : 2 ≤ r.hgt) :
    r.edges.count (Point.mk r.left r.top) = 1 ∧
    r.edges.count (Point.mk r.right r.top) = 1 ∧
    r.edges.count (Point.mk r.left r.bottom) = 1 ∧
    r.edges.count (Point.mk r.right r.bottom) = 1 := by
  have hrt : r.right = r.left + r.wid - 1 := rfl
  have hbt : r.bottom = r.top - r.hgt + 1 := rfl
  rw [edges_eq_spec]
  unfold edgesSpec
  refine ⟨?_, ?_, ?_, ?_⟩ <;>
    simp only [List.count_append, edgesSpecCols_count, edgesSpecSides_count,
      specRow_count, specCol_count, true_and, and_true] <;>
    split_ifs <;>
    omega

/-- Witness for the amended C4 at `Rect::new(1, 1, 3, 5)`. -/
theorem edges_corner_once_witness :
    (Rect.new 1 1 3 5).edges.count
        (Point.mk (Rect.new 1 1 3 5).left (Rect.new 1 1 3 5).top) = 1 ∧
    (Rect.new 1 1 3 5).edges.count
        (Point.mk (Rect.new 1 1 3 5).right (Rect.new 1 1 3 5).top) = 1 ∧
    (Rect.new 1 1 3 5).edges.count
        (Point.mk (Rect.new 1 1 3 5).left (Rect.new 1 1 3 5).bottom) = 1 ∧
    (Rect.new 1 1 3 5).edges.count
        (Point.mk (Rect.new 1 1 3 5).right (Rect.new 1 1 3 5).bottom) = 1 :=
  edges_corner_once (Rect.new 1 1 3 5) (by decide) (by decide)
